import Mathlib

/-!
Verification development for a collection of data-science notebooks
(digit recognition, mushroom classification, adult income, wine quality,
banking, subscription-length regression).  The notebooks are linear
sequences of calls into external libraries; the spec describes the
reusable train/evaluate/report workflow at design level (Data Loader,
Splitter, Preprocessor, Estimator, Hyperparameter Search,
Evaluator/Reporter).  Components that exist only as external library
calls are modelled here from the spec's contracts; the notebook-level
data flow (which rows reach which fit call, which model's predictions
feed which metric, which warning suppressions are installed) is embedded
from the notebook sources.
-/

/-- Modelled from the spec: the Splitter derives the partition from a
seeded pseudo-random permutation.  A linear congruential generator
supplies the pseudo-random stream that drives the permutation. -/
def lcg (s : Nat) : Nat := (1103515245 * s + 12345) % 2147483648

/-- Modelled from the spec: one seeded shuffling pass.  With fuel at
least the list's length it repeatedly extracts the element at position
`state % length` and advances the generator, producing a permutation of
the input. -/
def shuffleGo : Nat → Nat → List Nat → List Nat
  | 0, _, _ => []
  | fuel + 1, s, xs =>
    if _h : xs = [] then []
    else
      let i := s % xs.length
      xs.getD i 0 :: shuffleGo fuel (lcg s) (xs.eraseIdx i)

/-- Modelled from the spec: the seeded pseudo-random permutation of a
row-index list that the Splitter draws once per run. -/
def shuffle (s : Nat) (xs : List Nat) : List Nat := shuffleGo xs.length s xs

/-- Modelled from the spec: the evaluation-subset size for split
fraction `f` of `n` rows, rounded consistently (upward, matching the
1797-row scenario's 1437/360 sizes). -/
def testSize (f : ℚ) (n : Nat) : Nat := ⌈f * n⌉₊

/-- The two row-index subsets a split produces. -/
structure SplitResult where
  train : List Nat
  test : List Nat
deriving DecidableEq

/-- Modelled from the spec: the Splitter.  Not present in src/ (the
notebooks only call an external split routine); per the spec it permutes
the row indices with the seeded generator and cuts off the evaluation
subset at the rounded fraction. -/
def trainTestSplit (s : Nat) (f : ℚ) (n : Nat) : SplitResult :=
  let p := shuffle s (List.range n)
  ⟨p.drop (testSize f n), p.take (testSize f n)⟩

theorem perm_getD_cons_eraseIdx (xs : List Nat) (i : Nat) (h : i < xs.length) :
    xs.Perm (xs.getD i 0 :: xs.eraseIdx i) := by
  have hd : xs.getD i 0 = xs[i] := List.getD_eq_getElem xs 0 h
  conv_lhs => rw [← List.take_append_drop i xs]
  rw [List.drop_eq_getElem_cons h, List.eraseIdx_eq_take_drop_succ, hd]
  exact List.perm_middle

theorem shuffleGo_perm :
    ∀ (fuel s : Nat) (xs : List Nat), xs.length ≤ fuel →
      (shuffleGo fuel s xs).Perm xs := by
  intro fuel
  induction fuel with
  | zero =>
    intro s xs hx
    have : xs = [] := List.eq_nil_of_length_eq_zero (Nat.le_zero.mp hx)
    simp [this, shuffleGo]
  | succ fuel ih =>
    intro s xs hx
    by_cases h : xs = []
    · simp [h, shuffleGo]
    · have hlen : 0 < xs.length := List.length_pos.mpr h
      have hi : s % xs.length < xs.length := Nat.mod_lt _ hlen
      have herase : (xs.eraseIdx (s % xs.length)).length ≤ fuel := by
        rw [List.length_eraseIdx_of_lt hi]
        omega
      have hrec := ih (lcg s) (xs.eraseIdx (s % xs.length)) herase
      have hstep := perm_getD_cons_eraseIdx xs (s % xs.length) hi
      have heq : shuffleGo (fuel + 1) s xs
          = xs.getD (s % xs.length) 0 ::
              shuffleGo fuel (lcg s) (xs.eraseIdx (s % xs.length)) := by
        simp [shuffleGo, h]
      rw [heq]
      exact (List.Perm.cons _ hrec).trans hstep.symm

theorem shuffle_perm (s : Nat) (xs : List Nat) : (shuffle s xs).Perm xs :=
  shuffleGo_perm xs.length s xs le_rfl

theorem shuffle_length (s : Nat) (xs : List Nat) :
    (shuffle s xs).length = xs.length :=
  (shuffle_perm s xs).length_eq

theorem shuffle_range_nodup (s n : Nat) :
    (shuffle s (List.range n)).Nodup :=
  ((shuffle_perm s (List.range n)).nodup_iff).mpr (List.nodup_range n)

theorem trainTestSplit_test_length (s : Nat) (f : ℚ) (n : Nat)
    (h : testSize f n ≤ n) :
    (trainTestSplit s f n).test.length = testSize f n := by
  simp [trainTestSplit, shuffle_length, h, List.length_take, Nat.min_eq_left]

theorem trainTestSplit_train_length (s : Nat) (f : ℚ) (n : Nat) :
    (trainTestSplit s f n).train.length = n - testSize f n := by
  simp [trainTestSplit, shuffle_length]

theorem trainTestSplit_cover (s : Nat) (f : ℚ) (n : Nat) :
    ((trainTestSplit s f n).test ++ (trainTestSplit s f n).train).Perm
      (List.range n) := by
  simpa [trainTestSplit] using shuffle_perm s (List.range n)

theorem trainTestSplit_disjoint (s : Nat) (f : ℚ) (n : Nat) :
    ∀ x ∈ (trainTestSplit s f n).test, x ∉ (trainTestSplit s f n).train := by
  have hnodup : ((trainTestSplit s f n).test ++ (trainTestSplit s f n).train).Nodup :=
    ((trainTestSplit_cover s f n).nodup_iff).mpr (List.nodup_range n)
  exact fun x hx => (List.nodup_append.mp hnodup).2.2 hx

theorem testSize_le (f : ℚ) (n : Nat) (hf : f ≤ 1) : testSize f n ≤ n := by
  rw [testSize, Nat.ceil_le]
  calc f * n ≤ 1 * n := by
        apply mul_le_mul_of_nonneg_right hf (by positivity)
    _ = n := one_mul _

theorem abs_ceil_sub_round (x : ℚ) : |(⌈x⌉ : ℤ) - round x| ≤ 1 := by
  have h1 : (⌊x⌋ : ℤ) ≤ round x := by
    rw [round_eq]
    exact Int.floor_le_floor (by linarith)
  have h2 : round x ≤ ⌈x⌉ := by
    rw [round_eq]
    rw [Int.floor_le_iff]
    have := Int.le_ceil x
    linarith
  have h3 : (⌈x⌉ : ℤ) ≤ ⌊x⌋ + 1 := Int.ceil_le_floor_add_one x
  rw [abs_le]
  omega

/-- C5 helper: the evaluation-subset size is within one of the rounded
fraction of the row count. -/
theorem testSize_near_round (f : ℚ) (n : Nat) (hf : 0 ≤ f) :
    |(testSize f n : ℤ) - round (f * n)| ≤ 1 := by
  have hcast : ((testSize f n : Nat) : ℤ) = ⌈f * n⌉ := by
    rw [testSize]
    exact Int.natCast_ceil_eq_ceil (by positivity)
  rw [hcast]
  exact abs_ceil_sub_round (f * n)

/-- C5: for every split fraction strictly between 0 and 1 and every
row count, the Splitter's evaluation subset has size round(f*n) within
one, and the train and test subsets are disjoint row sets whose union is
exactly the full row-index range. -/
theorem splitter_fraction_partition (f : ℚ) (n s : Nat)
    (hf0 : 0 < f) (hf1 : f < 1) :
    |((trainTestSplit s f n).test.length : ℤ) - round (f * n)| ≤ 1
    ∧ (∀ x ∈ (trainTestSplit s f n).test, x ∉ (trainTestSplit s f n).train)
    ∧ ((trainTestSplit s f n).test ++ (trainTestSplit s f n).train).Perm
        (List.range n) := by
  refine ⟨?_, trainTestSplit_disjoint s f n, trainTestSplit_cover s f n⟩
  rw [trainTestSplit_test_length s f n (testSize_le f n (le_of_lt hf1))]
  exact testSize_near_round f n (le_of_lt hf0)

/-- Witness for C5 at the concrete fraction 1/5, 10 rows, seed 0. -/
theorem splitter_fraction_partition_witness :
    |((trainTestSplit 0 (1/5) 10).test.length : ℤ) - round ((1/5 : ℚ) * 10)| ≤ 1
    ∧ (∀ x ∈ (trainTestSplit 0 (1/5) 10).test, x ∉ (trainTestSplit 0 (1/5) 10).train)
    ∧ ((trainTestSplit 0 (1/5) 10).test ++ (trainTestSplit 0 (1/5) 10).train).Perm
        (List.range 10) :=
  splitter_fraction_partition (1/5) 10 0 (by norm_num) (by norm_num)

/-- The pseudo-random generator state ambient in a notebook run. -/
structure RngState where
  seed : Nat
deriving DecidableEq

/-- Modelled from the spec: one invocation of the Splitter as the
notebooks perform it.  With an explicit seed (the notebooks always pass
one) the partition is derived from that seed alone; without one it is
drawn from, and advances, the ambient generator state. -/
def splitterCall (ambient : RngState) (randomState : Option Nat) (f : ℚ)
    (n : Nat) : SplitResult × RngState :=
  match randomState with
  | some s => (trainTestSplit s f n, ambient)
  | none => (trainTestSplit ambient.seed f n, ⟨lcg ambient.seed⟩)

/-- C8: two invocations of the Splitter with the same explicit seed, the
same fraction and the same input produce identical train and test
partitions, whatever ambient generator states the two invocations see. -/
theorem splitter_deterministic (a₁ a₂ : RngState) (s n : Nat) (f : ℚ) :
    ((splitterCall a₁ (some s) f n).1.train = (splitterCall a₂ (some s) f n).1.train)
    ∧ ((splitterCall a₁ (some s) f n).1.test = (splitterCall a₂ (some s) f n).1.test) :=
  ⟨rfl, rfl⟩

/-- Modelled from the spec: the Evaluator's class list when the caller
supplies no ordering — the distinct labels in order of first appearance
in the input label stream. -/
def classesOf {α : Type} [DecidableEq α] : List α → List α
  | [] => []
  | x :: xs => x :: (classesOf xs).filter (fun y => decide (y ≠ x))

/-- Modelled from the spec: the class ordering the Evaluator uses —
a caller-supplied ordering when given, first appearance otherwise. -/
def evaluatorClasses {α : Type} [DecidableEq α] (callerOrder : Option (List α))
    (yTrue yPred : List α) : List α :=
  match callerOrder with
  | some cs => cs
  | none => classesOf (yTrue ++ yPred)

/-- Modelled from the spec: the confusion matrix over a class list —
rows index the true class, columns the predicted class, each cell the
count of evaluated rows with that (true, predicted) pair. -/
def confusionMatrix {α : Type} [DecidableEq α] (cs : List α)
    (yTrue yPred : List α) : List (List Nat) :=
  cs.map (fun t => cs.map (fun p =>
    (yTrue.zip yPred).countP (fun q => decide (q.1 = t) && decide (q.2 = p))))

/-- The Evaluator's confusion matrix as the notebooks request it. -/
def evalConfusionMatrix {α : Type} [DecidableEq α] (callerOrder : Option (List α))
    (yTrue yPred : List α) : List (List Nat) :=
  confusionMatrix (evaluatorClasses callerOrder yTrue yPred) yTrue yPred

/-- Sum of every cell of a matrix. -/
def matrixTotal (m : List (List Nat)) : Nat := (m.map List.sum).sum

def diagFrom : Nat → List (List Nat) → Nat
  | _, [] => 0
  | i, r :: rs => r.getD i 0 + diagFrom (i + 1) rs

/-- Sum of the diagonal cells of a matrix. -/
def diagSum (m : List (List Nat)) : Nat := diagFrom 0 m

def offDiagFrom : Nat → List (List Nat) → Nat
  | _, [] => 0
  | i, r :: rs => (r.eraseIdx i).sum + offDiagFrom (i + 1) rs

/-- Sum of the off-diagonal cells of a matrix. -/
def offDiagSum (m : List (List Nat)) : Nat := offDiagFrom 0 m

theorem mem_classesOf {α : Type} [DecidableEq α] :
    ∀ (l : List α) (x : α), x ∈ classesOf l ↔ x ∈ l := by
  intro l
  induction l with
  | nil => simp [classesOf]
  | cons c cs ih =>
    intro x
    by_cases hx : x = c
    · simp [classesOf, hx]
    · simp [classesOf, hx, List.mem_filter, ih x]

theorem nodup_classesOf {α : Type} [DecidableEq α] :
    ∀ l : List α, (classesOf l).Nodup := by
  intro l
  induction l with
  | nil => simp [classesOf]
  | cons c cs ih =>
    rw [classesOf, List.nodup_cons]
    constructor
    · intro hc
      have := (List.mem_filter.mp hc).2
      simp at this
    · exact ih.filter _

theorem pairwise_classesOf {α : Type} [DecidableEq α] :
    ∀ l : List α, (classesOf l).Pairwise (fun a b => l.indexOf a < l.indexOf b) := by
  intro l
  induction l with
  | nil => simp [classesOf]
  | cons c cs ih =>
    rw [classesOf, List.pairwise_cons]
    constructor
    · intro b hb
      have hbne : b ≠ c := by
        have := (List.mem_filter.mp hb).2
        simpa using this
      rw [List.indexOf_cons_self, List.indexOf_cons_ne cs hbne.symm]
      exact Nat.succ_pos _
    · have hsub : List.Pairwise (fun a b => cs.indexOf a < cs.indexOf b)
          ((classesOf cs).filter (fun y => decide (y ≠ c))) :=
        ih.filter _
      refine hsub.imp_of_mem ?_
      intro a b ha hb hab
      have hane : a ≠ c := by
        have := (List.mem_filter.mp ha).2
        simpa using this
      have hbne : b ≠ c := by
        have := (List.mem_filter.mp hb).2
        simpa using this
      rw [List.indexOf_cons_ne cs hane.symm, List.indexOf_cons_ne cs hbne.symm]
      omega

theorem sum_map_add_nat {α : Type} (cs : List α) (f g : α → Nat) :
    (cs.map (fun x => f x + g x)).sum = (cs.map f).sum + (cs.map g).sum := by
  induction cs with
  | nil => simp
  | cons c cs ih => simp [ih]; omega

theorem sum_map_indicator_zero {α : Type} [DecidableEq α] (cs : List α) (a : α)
    (ha : a ∉ cs) :
    (cs.map (fun x => if a = x then (1 : Nat) else 0)).sum = 0 := by
  induction cs with
  | nil => simp
  | cons c cs ih =>
    have hac : a ≠ c := fun h => ha (h ▸ List.mem_cons_self c cs)
    have ha2 : a ∉ cs := fun h => ha (List.mem_cons_of_mem c h)
    simp [hac, ih ha2]

theorem sum_map_indicator_one {α : Type} [DecidableEq α] (cs : List α) (a : α)
    (hn : cs.Nodup) (ha : a ∈ cs) :
    (cs.map (fun x => if a = x then (1 : Nat) else 0)).sum = 1 := by
  induction cs with
  | nil => simp at ha
  | cons c cs ih =>
    rcases List.nodup_cons.mp hn with ⟨hc, hn2⟩
    by_cases hac : a = c
    · subst hac
      simp [sum_map_indicator_zero cs a hc]
    · have ha2 : a ∈ cs := by
        rcases List.mem_cons.mp ha with h | h
        · exact absurd h hac
        · exact h
      simp [hac, ih hn2 ha2]

theorem sum_map_countP_snd {α : Type} [DecidableEq α] (t : α) :
    ∀ (pairs : List (α × α)) (cs : List α), cs.Nodup →
      (∀ q ∈ pairs, q.2 ∈ cs) →
      (cs.map (fun p =>
          pairs.countP (fun q => decide (q.1 = t) && decide (q.2 = p)))).sum
        = pairs.countP (fun q => decide (q.1 = t)) := by
  intro pairs
  induction pairs with
  | nil => intro cs _ _; simp
  | cons q rest ih =>
    intro cs hn hcover
    have hrest : ∀ r ∈ rest, r.2 ∈ cs := fun r hr =>
      hcover r (List.mem_cons_of_mem q hr)
    have hq : q.2 ∈ cs := hcover q (List.mem_cons_self q rest)
    simp only [List.countP_cons]
    have hmap : (cs.map (fun p =>
        rest.countP (fun r => decide (r.1 = t) && decide (r.2 = p))
          + if decide (q.1 = t) && decide (q.2 = p) then 1 else 0)).sum
        = (cs.map (fun p =>
            rest.countP (fun r => decide (r.1 = t) && decide (r.2 = p)))).sum
          + (cs.map (fun p =>
              if decide (q.1 = t) && decide (q.2 = p) then 1 else 0)).sum :=
      sum_map_add_nat cs _ _
    rw [hmap, ih cs hn hrest]
    by_cases hqt : q.1 = t
    · have : (cs.map (fun p =>
          if decide (q.1 = t) && decide (q.2 = p) then 1 else 0)).sum
          = (cs.map (fun p => if q.2 = p then (1 : Nat) else 0)).sum := by
        apply congrArg
        apply List.map_congr_left
        intro p _
        simp [hqt]
      rw [this, sum_map_indicator_one cs q.2 hn hq]
      simp [hqt]
    · have : (cs.map (fun p =>
          if decide (q.1 = t) && decide (q.2 = p) then 1 else 0)).sum
          = (cs.map (fun _ => (0 : Nat))).sum := by
        apply congrArg
        apply List.map_congr_left
        intro p _
        simp [hqt]
      rw [this]
      simp [hqt]

theorem sum_map_countP_fst {α : Type} [DecidableEq α] :
    ∀ (pairs : List (α × α)) (cs : List α), cs.Nodup →
      (∀ q ∈ pairs, q.1 ∈ cs) →
      (cs.map (fun t => pairs.countP (fun q => decide (q.1 = t)))).sum
        = pairs.length := by
  intro pairs
  induction pairs with
  | nil => intro cs _ _; simp
  | cons q rest ih =>
    intro cs hn hcover
    have hrest : ∀ r ∈ rest, r.1 ∈ cs := fun r hr =>
      hcover r (List.mem_cons_of_mem q hr)
    have hq : q.1 ∈ cs := hcover q (List.mem_cons_self q rest)
    simp only [List.countP_cons]
    have hmap : (cs.map (fun t =>
        rest.countP (fun r => decide (r.1 = t))
          + if decide (q.1 = t) then 1 else 0)).sum
        = (cs.map (fun t => rest.countP (fun r => decide (r.1 = t)))).sum
          + (cs.map (fun t => if decide (q.1 = t) then 1 else 0)).sum :=
      sum_map_add_nat cs _ _
    rw [hmap, ih cs hn hrest]
    have : (cs.map (fun t => if decide (q.1 = t) then (1 : Nat) else 0)).sum
        = (cs.map (fun t => if q.1 = t then (1 : Nat) else 0)).sum := by
      apply congrArg
      apply List.map_congr_left
      intro p _
      simp
    rw [this, sum_map_indicator_one cs q.1 hn hq]
    simp [List.length_cons]

theorem confusionMatrix_row_sums {α : Type} [DecidableEq α]
    (cs yTrue yPred : List α) (hn : cs.Nodup)
    (hsnd : ∀ q ∈ yTrue.zip yPred, q.2 ∈ cs) :
    List.Forall₂
      (fun t row => row.sum
        = (yTrue.zip yPred).countP (fun q => decide (q.1 = t)))
      cs (confusionMatrix cs yTrue yPred) := by
  rw [confusionMatrix, List.forall₂_map_right_iff, List.forall₂_same]
  intro t _
  exact sum_map_countP_snd t (yTrue.zip yPred) cs hn hsnd

theorem matrixTotal_confusionMatrix {α : Type} [DecidableEq α]
    (cs yTrue yPred : List α) (hn : cs.Nodup)
    (hfst : ∀ q ∈ yTrue.zip yPred, q.1 ∈ cs)
    (hsnd : ∀ q ∈ yTrue.zip yPred, q.2 ∈ cs) :
    matrixTotal (confusionMatrix cs yTrue yPred) = (yTrue.zip yPred).length := by
  rw [matrixTotal, confusionMatrix, List.map_map]
  have hrows : (cs.map (List.sum ∘ fun t => cs.map (fun p =>
      (yTrue.zip yPred).countP (fun q => decide (q.1 = t) && decide (q.2 = p)))))
      = cs.map (fun t => (yTrue.zip yPred).countP (fun q => decide (q.1 = t))) := by
    apply List.map_congr_left
    intro t _
    exact sum_map_countP_snd t (yTrue.zip yPred) cs hn hsnd
  rw [hrows]
  exact sum_map_countP_fst (yTrue.zip yPred) cs hn hfst

theorem getD_add_eraseIdx_sum (r : List Nat) (i : Nat) (h : i < r.length) :
    r.getD i 0 + (r.eraseIdx i).sum = r.sum := by
  rw [List.getD_eq_getElem r 0 h, List.eraseIdx_eq_take_drop_succ]
  conv_rhs => rw [← List.take_append_drop i r, List.drop_eq_getElem_cons h]
  rw [List.sum_append, List.sum_append, List.sum_cons]
  omega

theorem diagFrom_add_offDiagFrom :
    ∀ (m : List (List Nat)) (i : Nat),
      (∀ r ∈ m, i + m.length ≤ r.length) →
      diagFrom i m + offDiagFrom i m = matrixTotal m := by
  intro m
  induction m with
  | nil => intro i _; simp [diagFrom, offDiagFrom, matrixTotal]
  | cons r rs ih =>
    intro i hlen
    have hi : i < r.length := by
      have := hlen r (List.mem_cons_self r rs)
      simp [List.length_cons] at this
      omega
    have hrec : diagFrom (i + 1) rs + offDiagFrom (i + 1) rs = matrixTotal rs := by
      apply ih
      intro r2 hr2
      have := hlen r2 (List.mem_cons_of_mem r hr2)
      simp [List.length_cons] at this
      omega
    have hrow := getD_add_eraseIdx_sum r i hi
    simp only [diagFrom, offDiagFrom, matrixTotal, List.map_cons, List.sum_cons]
    simp only [matrixTotal] at hrec
    omega

theorem diagSum_add_offDiagSum (m : List (List Nat))
    (hsq : ∀ r ∈ m, m.length ≤ r.length) :
    diagSum m + offDiagSum m = matrixTotal m := by
  apply diagFrom_add_offDiagFrom
  intro r hr
  simpa using hsq r hr

theorem countP_fst_zip_eq_count {α : Type} [DecidableEq α]
    (yTrue yPred : List α) (t : α) (h : yTrue.length ≤ yPred.length) :
    (yTrue.zip yPred).countP (fun q => decide (q.1 = t)) = yTrue.count t := by
  have h1 : (yTrue.zip yPred).countP (fun q => decide (q.1 = t))
      = ((yTrue.zip yPred).map Prod.fst).countP (fun x => decide (x = t)) := by
    rw [List.countP_map]
    rfl
  rw [h1, List.map_fst_zip yTrue yPred h, List.count_eq_countP]
  rfl

/-- C6: in every Evaluator confusion matrix built from equal-length true
and predicted label vectors, each row sum equals the number of times
that row's class occurs among the true labels, and the sum of all cells
equals the number of evaluated rows. -/
theorem evaluator_confusion_row_sums {α : Type} [DecidableEq α]
    (yTrue yPred : List α) (h : yTrue.length = yPred.length) :
    List.Forall₂ (fun t row => row.sum = yTrue.count t)
      (evaluatorClasses none yTrue yPred) (evalConfusionMatrix none yTrue yPred)
    ∧ matrixTotal (evalConfusionMatrix none yTrue yPred) = yTrue.length := by
  have hn : (classesOf (yTrue ++ yPred)).Nodup := nodup_classesOf _
  have hfst : ∀ q ∈ yTrue.zip yPred, q.1 ∈ classesOf (yTrue ++ yPred) := by
    intro q hq
    obtain ⟨a, b⟩ := q
    rcases List.of_mem_zip hq with ⟨ha, _⟩
    exact (mem_classesOf _ _).mpr (List.mem_append_left _ ha)
  have hsnd : ∀ q ∈ yTrue.zip yPred, q.2 ∈ classesOf (yTrue ++ yPred) := by
    intro q hq
    obtain ⟨a, b⟩ := q
    rcases List.of_mem_zip hq with ⟨_, hb⟩
    exact (mem_classesOf _ _).mpr (List.mem_append_right _ hb)
  constructor
  · have hf := confusionMatrix_row_sums (classesOf (yTrue ++ yPred)) yTrue yPred hn hsnd
    apply hf.imp
    intro t row hrow
    rw [hrow]
    exact countP_fst_zip_eq_count yTrue yPred t (le_of_eq h)
  · have ht := matrixTotal_confusionMatrix (classesOf (yTrue ++ yPred)) yTrue yPred hn hfst hsnd
    have hlen : (yTrue.zip yPred).length = yTrue.length := by
      rw [List.length_zip, h, Nat.min_self]
    show matrixTotal (confusionMatrix (classesOf (yTrue ++ yPred)) yTrue yPred)
        = yTrue.length
    rw [ht, hlen]

/-- Witness for C6 on concrete label vectors of length three. -/
theorem evaluator_confusion_row_sums_witness :
    ([0, 1, 0] : List Nat).length = ([0, 1, 1] : List Nat).length
    ∧ (List.Forall₂ (fun t row => row.sum = ([0, 1, 0] : List Nat).count t)
        (evaluatorClasses none [0, 1, 0] [0, 1, 1])
        (evalConfusionMatrix none [0, 1, 0] [0, 1, 1])
      ∧ matrixTotal (evalConfusionMatrix none ([0, 1, 0] : List Nat) [0, 1, 1]) = 3) :=
  ⟨rfl, evaluator_confusion_row_sums [0, 1, 0] [0, 1, 1] rfl⟩

theorem countP_pair_eq_length_filter {α : Type} [DecidableEq α]
    (pairs : List (α × α)) (t p : α) :
    pairs.countP (fun q => decide (q.1 = t) && decide (q.2 = p))
      = (pairs.filter (fun q => decide (q.1 = t ∧ q.2 = p))).length := by
  rw [← List.countP_eq_length_filter]
  apply List.countP_congr
  intro q _
  simp [Bool.decide_and]

/-- C7: every Evaluator confusion matrix has one row per class and one
column per class, rows indexing the true class and columns the
predicted class; each cell counts the evaluated rows with that
(true, predicted) pair; and the class list is the caller-supplied
ordering when one is given, otherwise the distinct input labels in
order of first appearance. -/
theorem evaluator_confusion_structure {α : Type} [DecidableEq α]
    (yTrue yPred : List α) (callerOrder : Option (List α)) :
    (evalConfusionMatrix callerOrder yTrue yPred).length
        = (evaluatorClasses callerOrder yTrue yPred).length
    ∧ (∀ row ∈ evalConfusionMatrix callerOrder yTrue yPred,
        row.length = (evaluatorClasses callerOrder yTrue yPred).length)
    ∧ List.Forall₂ (fun t row =>
        List.Forall₂ (fun p cell =>
          cell = ((yTrue.zip yPred).filter
            (fun q => decide (q.1 = t ∧ q.2 = p))).length)
          (evaluatorClasses callerOrder yTrue yPred) row)
        (evaluatorClasses callerOrder yTrue yPred)
        (evalConfusionMatrix callerOrder yTrue yPred)
    ∧ (∀ cs, callerOrder = some cs → evaluatorClasses callerOrder yTrue yPred = cs)
    ∧ (callerOrder = none →
        (evaluatorClasses callerOrder yTrue yPred).Nodup
        ∧ (∀ x, x ∈ evaluatorClasses callerOrder yTrue yPred ↔ x ∈ yTrue ++ yPred)
        ∧ (evaluatorClasses callerOrder yTrue yPred).Pairwise
            (fun a b => (yTrue ++ yPred).indexOf a < (yTrue ++ yPred).indexOf b)) := by
  refine ⟨?_, ?_, ?_, ?_, ?_⟩
  · rw [evalConfusionMatrix, confusionMatrix, List.length_map]
  · intro row hrow
    rw [evalConfusionMatrix, confusionMatrix] at hrow
    rcases List.mem_map.mp hrow with ⟨t, _, rfl⟩
    rw [List.length_map]
  · rw [evalConfusionMatrix, confusionMatrix, List.forall₂_map_right_iff,
      List.forall₂_same]
    intro t _
    rw [List.forall₂_map_right_iff, List.forall₂_same]
    intro p _
    exact countP_pair_eq_length_filter (yTrue.zip yPred) t p
  · intro cs hcs
    rw [hcs, evaluatorClasses]
  · intro hnone
    subst hnone
    exact ⟨nodup_classesOf _, mem_classesOf _, pairwise_classesOf _⟩

/-- The digit notebook's split: 1797 rows, evaluation fraction 0.2,
seed 0. -/
def digitsSplit : SplitResult := trainTestSplit 0 (1/5) 1797

/-- Modelled from the spec: a classifier's score is its accuracy, the
fraction of rows whose predicted label matches the true label. -/
def accuracyScore {α : Type} [DecidableEq α] (yTrue yPred : List α) : ℚ :=
  ((yTrue.zip yPred).countP (fun q => decide (q.1 = q.2)) : ℚ) / (yTrue.length : ℚ)

theorem accuracyScore_mem_Icc {α : Type} [DecidableEq α]
    (yTrue yPred : List α) : accuracyScore yTrue yPred ∈ Set.Icc (0 : ℚ) 1 := by
  constructor
  · exact div_nonneg (Nat.cast_nonneg _) (Nat.cast_nonneg _)
  · apply div_le_one_of_le₀
    · have h1 : (yTrue.zip yPred).countP (fun q => decide (q.1 = q.2))
          ≤ (yTrue.zip yPred).length := List.countP_le_length _
      have h2 : (yTrue.zip yPred).length ≤ yTrue.length := by
        rw [List.length_zip]
        exact Nat.min_le_left _ _
      exact_mod_cast le_trans h1 h2
    · exact Nat.cast_nonneg _

theorem nodup_covering_fin_length {k : Nat} (l : List (Fin k))
    (hn : l.Nodup) (hc : ∀ d : Fin k, d ∈ l) : l.length = k := by
  have huniv : l.toFinset = Finset.univ := by
    apply Finset.eq_univ_iff_forall.mpr
    intro d
    exact List.mem_toFinset.mpr (hc d)
  have := List.toFinset_card_of_nodup hn
  rw [huniv] at this
  simpa using this.symm

theorem testSize_digits : testSize (1/5) 1797 = 360 := by
  rw [testSize, Nat.ceil_eq_iff (by norm_num)]
  norm_num

/-- C3: the 1797-row digit dataset split 80/20 with seed 0 yields 1437
training and 360 evaluation rows; the fitted tree's score on the
training subset (its accuracy, whatever the opaque fitted model
predicts) lies in [0,1]; and the confusion matrix over the 360 test
labels — which cover all ten digit classes — is a 10×10 matrix whose
diagonal sum plus off-diagonal sum equals 360. -/
theorem digits_scenario
    (yTrainTrue yTrainPred : List (Fin 10))
    (yTestTrue yTestPred : List (Fin 10))
    (_htr : yTrainTrue.length = 1437)
    (hte : yTestTrue.length = 360) (htep : yTestPred.length = 360)
    (hcover : ∀ d : Fin 10, d ∈ yTestTrue) :
    digitsSplit.train.length = 1437
    ∧ digitsSplit.test.length = 360
    ∧ accuracyScore yTrainTrue yTrainPred ∈ Set.Icc (0 : ℚ) 1
    ∧ (evalConfusionMatrix none yTestTrue yTestPred).length = 10
    ∧ (∀ row ∈ evalConfusionMatrix none yTestTrue yTestPred, row.length = 10)
    ∧ diagSum (evalConfusionMatrix none yTestTrue yTestPred)
        + offDiagSum (evalConfusionMatrix none yTestTrue yTestPred) = 360 := by
  have hcs : ∀ d : Fin 10, d ∈ classesOf (yTestTrue ++ yTestPred) := by
    intro d
    exact (mem_classesOf _ _).mpr (List.mem_append_left _ (hcover d))
  have hlen10 : (classesOf (yTestTrue ++ yTestPred)).length = 10 :=
    nodup_covering_fin_length _ (nodup_classesOf _) hcs
  have hcmlen : (evalConfusionMatrix none yTestTrue yTestPred).length = 10 := by
    rw [evalConfusionMatrix, confusionMatrix, List.length_map]
    exact hlen10
  have hrows : ∀ row ∈ evalConfusionMatrix none yTestTrue yTestPred,
      row.length = 10 := by
    intro row hrow
    rw [evalConfusionMatrix, confusionMatrix] at hrow
    rcases List.mem_map.mp hrow with ⟨t, _, rfl⟩
    rw [List.length_map]
    exact hlen10
  refine ⟨?_, ?_, accuracyScore_mem_Icc _ _, hcmlen, hrows, ?_⟩
  · rw [digitsSplit, trainTestSplit_train_length, testSize_digits]
  · rw [digitsSplit, trainTestSplit_test_length 0 (1/5) 1797 (by rw [testSize_digits]; omega)]
    exact testSize_digits
  · have hfst : ∀ q ∈ yTestTrue.zip yTestPred,
        q.1 ∈ classesOf (yTestTrue ++ yTestPred) := fun q _ => hcs q.1
    have hsnd : ∀ q ∈ yTestTrue.zip yTestPred,
        q.2 ∈ classesOf (yTestTrue ++ yTestPred) := fun q _ => hcs q.2
    have htot := matrixTotal_confusionMatrix
      (classesOf (yTestTrue ++ yTestPred)) yTestTrue yTestPred
      (nodup_classesOf _) hfst hsnd
    have hziplen : (yTestTrue.zip yTestPred).length = 360 := by
      rw [List.length_zip, hte, htep, Nat.min_self]
    have hsq : ∀ row ∈ evalConfusionMatrix none yTestTrue yTestPred,
        (evalConfusionMatrix none yTestTrue yTestPred).length ≤ row.length := by
      intro row hrow
      rw [hcmlen, hrows row hrow]
    rw [diagSum_add_offDiagSum _ hsq]
    show matrixTotal (confusionMatrix (classesOf (yTestTrue ++ yTestPred))
      yTestTrue yTestPred) = 360
    rw [htot, hziplen]

/-- Witness for C3: concrete test labels covering all ten digits and a
constant prediction vector. -/
theorem digits_scenario_witness :
    (List.replicate 1437 (0 : Fin 10)).length = 1437
    ∧ (List.finRange 10 ++ List.replicate 350 (0 : Fin 10)).length = 360
    ∧ (List.replicate 360 (0 : Fin 10)).length = 360
    ∧ (∀ d : Fin 10, d ∈ List.finRange 10 ++ List.replicate 350 (0 : Fin 10))
    ∧ (digitsSplit.train.length = 1437
      ∧ digitsSplit.test.length = 360
      ∧ accuracyScore (List.replicate 1437 (0 : Fin 10))
          (List.replicate 1437 (0 : Fin 10)) ∈ Set.Icc (0 : ℚ) 1
      ∧ (evalConfusionMatrix none
          (List.finRange 10 ++ List.replicate 350 (0 : Fin 10))
          (List.replicate 360 (0 : Fin 10))).length = 10
      ∧ (∀ row ∈ evalConfusionMatrix none
          (List.finRange 10 ++ List.replicate 350 (0 : Fin 10))
          (List.replicate 360 (0 : Fin 10)), row.length = 10)
      ∧ diagSum (evalConfusionMatrix none
            (List.finRange 10 ++ List.replicate 350 (0 : Fin 10))
            (List.replicate 360 (0 : Fin 10)))
          + offDiagSum (evalConfusionMatrix none
            (List.finRange 10 ++ List.replicate 350 (0 : Fin 10))
            (List.replicate 360 (0 : Fin 10))) = 360) :=
  ⟨List.length_replicate 1437 0,
    by rw [List.length_append, List.length_finRange, List.length_replicate],
    List.length_replicate 360 0,
    fun d => List.mem_append_left _ (List.mem_finRange d),
    digits_scenario
      (List.replicate 1437 (0 : Fin 10)) (List.replicate 1437 (0 : Fin 10))
      (List.finRange 10 ++ List.replicate 350 (0 : Fin 10))
      (List.replicate 360 (0 : Fin 10))
      (List.length_replicate 1437 0)
      (by rw [List.length_append, List.length_finRange, List.length_replicate])
      (List.length_replicate 360 0)
      (fun d => List.mem_append_left _ (List.mem_finRange d))⟩

/-- A gradient-boosting configuration as the wine notebook's parameter
grid varies it: two values of max_depth, n_estimators and random_state
fixed to a single value each. -/
structure GbConfig where
  maxDepth : Nat
  nEstimators : Nat
  randomSeed : Nat
deriving DecidableEq

/-- The wine notebook's grid: max_depth takes 5 and 10, n_estimators is
fixed to 50, random_state fixed to 1 — exactly two configurations. -/
def wineParamGrid : List GbConfig := [⟨5, 50, 1⟩, ⟨10, 50, 1⟩]

/-- Modelled from the spec: the cross-validation fit operations a grid
search performs — one per grid point per fold. -/
def cvFitOps : List GbConfig → Nat → List (GbConfig × Nat)
  | [], _ => []
  | c :: rest, k => (List.range k).map (fun j => (c, j)) ++ cvFitOps rest k

/-- Modelled from the spec: a configuration's cross-validated score —
the mean of its per-fold scores. -/
def foldMean (k : Nat) (score : GbConfig → Nat → ℚ) (c : GbConfig) : ℚ :=
  ((List.range k).map (score c)).sum / (k : ℚ)

def selectBestGo (c : GbConfig) (v : ℚ) : List (GbConfig × ℚ) → GbConfig
  | [] => c
  | (d, w) :: rest => if v < w then selectBestGo d w rest else selectBestGo c v rest

/-- Modelled from the spec: pick the scored configuration with the
maximal score, keeping the earlier one on ties. -/
def selectBest : List (GbConfig × ℚ) → Option GbConfig
  | [] => none
  | (c, v) :: rest => some (selectBestGo c v rest)

/-- Modelled from the spec: the Hyperparameter Search — evaluate every
grid point with k-fold cross-validation and report the best mean score,
together with the list of fit operations performed. -/
def gridSearchFit (grid : List GbConfig) (k : Nat)
    (score : GbConfig → Nat → ℚ) : Option GbConfig × Nat :=
  (selectBest (grid.map (fun c => (c, foldMean k score c))),
    (cvFitOps grid k).length)

theorem cvFitOps_length : ∀ (grid : List GbConfig) (k : Nat),
    (cvFitOps grid k).length = grid.length * k := by
  intro grid
  induction grid with
  | nil => intro k; simp [cvFitOps]
  | cons c rest ih =>
    intro k
    simp [cvFitOps, ih k]
    ring

/-- C4: over the wine notebook's two-configuration grid with five-fold
cross-validation, the search performs exactly ten fit operations (one
per grid point per fold), and reports the configuration with the higher
mean fold score, preferring the first grid entry on ties — whatever the
per-fold scores are. -/
theorem grid_search_two_configs (score : GbConfig → Nat → ℚ) :
    (gridSearchFit wineParamGrid 5 score).2 = 10
    ∧ (gridSearchFit wineParamGrid 5 score).1 =
        some (if foldMean 5 score ⟨5, 50, 1⟩ < foldMean 5 score ⟨10, 50, 1⟩
          then (⟨10, 50, 1⟩ : GbConfig) else ⟨5, 50, 1⟩) := by
  constructor
  · show (cvFitOps wineParamGrid 5).length = 10
    rw [cvFitOps_length]
    rfl
  · show selectBest (wineParamGrid.map
        (fun c => (c, foldMean 5 score c))) = _
    rw [wineParamGrid]
    simp only [List.map_cons, List.map_nil, selectBest, selectBestGo]

/-- An encoded feature frame: named columns in order, each carrying its
column of numeric values. -/
def Frame (C : Type) : Type := List (C × List ℚ)

/-- The frame's column schema, in column order. -/
def frameCols {C : Type} (f : Frame C) : List C := f.map Prod.fst

/-- Look a column's values up by name (first match). -/
def colLookup {C : Type} [DecidableEq C] : Frame C → C → Option (List ℚ)
  | [], _ => none
  | (d, v) :: rest, c => if c = d then some v else colLookup rest c

/-- The adult-income notebook's reindex step: rebuild a frame to a
target column list, taking each column's values from the source frame
when present and a fill column otherwise. -/
def reindexFrame {C : Type} [DecidableEq C] (f : Frame C) (target : List C)
    (fill : List ℚ) : Frame C :=
  target.map (fun c => (c, (colLookup f c).getD fill))

/-- Modelled from the spec: predict guards against a column schema that
differs from the fit-time schema, signalling the schema-mismatch
failure instead of producing predictions. -/
def predictChecked {C : Type} [DecidableEq C] (fitSchema : List C)
    (predictRaw : Frame C → List ℚ) (x : Frame C) : Except String (List ℚ) :=
  if frameCols x = fitSchema then Except.ok (predictRaw x)
  else Except.error "SchemaMismatch"

theorem frameCols_reindexFrame {C : Type} [DecidableEq C] (f : Frame C)
    (target : List C) (fill : List ℚ) :
    frameCols (reindexFrame f target fill) = target := by
  rw [frameCols, reindexFrame, List.map_map]
  exact List.map_id _

theorem colLookup_notMem {C : Type} [DecidableEq C] :
    ∀ (f : Frame C) (c : C), c ∉ frameCols f → colLookup f c = none := by
  intro f
  induction f with
  | nil => intro c _; rfl
  | cons p rest ih =>
    intro c hc
    obtain ⟨d, v⟩ := p
    have hcd : c ≠ d := by
      intro h
      exact hc (h ▸ List.mem_cons_self d (frameCols rest))
    have hrest : c ∉ frameCols rest := by
      intro h
      exact hc (List.mem_cons_of_mem d h)
    simp [colLookup, hcd, ih c hrest]

theorem colLookup_reindexFrame_filled {C : Type} [DecidableEq C]
    (f : Frame C) (fill : List ℚ) :
    ∀ (target : List C) (c : C), c ∈ target → c ∉ frameCols f →
      colLookup (reindexFrame f target fill) c = some fill := by
  intro target
  induction target with
  | nil => intro c hc _; simp at hc
  | cons d rest ih =>
    intro c hc habsent
    rcases List.mem_cons.mp hc with h | h
    · subst h
      simp [reindexFrame, colLookup, colLookup_notMem f c habsent]
    · by_cases hcd : c = d
      · subst hcd
        simp [reindexFrame, colLookup, colLookup_notMem f c habsent]
      · have := ih c h habsent
        simpa [reindexFrame, colLookup, hcd] using this

/-- C9: reindexing the one-hot-encoded test frame to the training
frame's columns yields exactly the training schema, every training
column absent from the test frame is the all-zero fill column, and the
schema-guarded predict therefore always succeeds on the reindexed frame
— the schema-mismatch branch is unreachable, whatever categories the
test data contains. -/
theorem adult_reindex_schema_safe {C : Type} [DecidableEq C]
    (trainEncoded testEncoded : Frame C) (nRows : Nat)
    (predictRaw : Frame C → List ℚ) :
    frameCols (reindexFrame testEncoded (frameCols trainEncoded)
        (List.replicate nRows 0)) = frameCols trainEncoded
    ∧ (∀ c, c ∈ frameCols trainEncoded → c ∉ frameCols testEncoded →
        colLookup (reindexFrame testEncoded (frameCols trainEncoded)
          (List.replicate nRows 0)) c = some (List.replicate nRows 0))
    ∧ predictChecked (frameCols trainEncoded) predictRaw
        (reindexFrame testEncoded (frameCols trainEncoded)
          (List.replicate nRows 0))
      = Except.ok (predictRaw (reindexFrame testEncoded
          (frameCols trainEncoded) (List.replicate nRows 0))) := by
  refine ⟨frameCols_reindexFrame _ _ _, ?_, ?_⟩
  · intro c hc habsent
    exact colLookup_reindexFrame_filled testEncoded _ _ c hc habsent
  · rw [predictChecked, if_pos (frameCols_reindexFrame _ _ _)]

/-- Mean of a rational list (0 for the empty list, by division by
zero). -/
def meanQ (l : List ℚ) : ℚ := l.sum / (l.length : ℚ)

/-- The r² metric: one minus the ratio of the residual sum of squares
to the total sum of squares about the mean of the actual values. -/
def r2Score (actual pred : List ℚ) : ℚ :=
  1 - ((actual.zip pred).map (fun q => (q.1 - q.2) ^ 2)).sum
      / (actual.map (fun y => (y - meanQ actual) ^ 2)).sum

/-- The notebook's regression data and the opaque semantics of the
external linear model and recursive-feature-elimination wrapper: a
fitted full model, its predictions, and an RFE model fitted with a
chosen feature count together with its own predictions. -/
structure RegressionRun where
  lmModel : Type
  rfeModel : Type
  lmFit : List (List ℚ) → List ℚ → lmModel
  lmPredict : lmModel → List (List ℚ) → List ℚ
  rfeFit : lmModel → Nat → List (List ℚ) → List ℚ → rfeModel
  rfePredict : rfeModel → List (List ℚ) → List ℚ
  xTrain : List (List ℚ)
  yTrain : List ℚ
  xTest : List (List ℚ)
  yTest : List ℚ

/-- The final-model cell of the subscription-length notebook: fit the
full linear model, fit an RFE model restricted to the chosen feature
count, then report r² of the FULL model's predictions on the test
features (the notebook predicts through lm, not through rfe). -/
def finalCellR2 (run : RegressionRun) (nFeatures : Nat) : ℚ :=
  let lm := run.lmFit run.xTrain run.yTrain
  let _rfe := run.rfeFit lm nFeatures run.xTrain run.yTrain
  r2Score run.yTest (run.lmPredict lm run.xTest)

/-- The earlier evaluation cells of the same notebook: identical
fitting steps, but r² is computed from the RFE model's predictions. -/
def rfeCellR2 (run : RegressionRun) (nFeatures : Nat) : ℚ :=
  let lm := run.lmFit run.xTrain run.yTrain
  let rfe := run.rfeFit lm nFeatures run.xTrain run.yTrain
  r2Score run.yTest (run.rfePredict rfe run.xTest)

/-- A concrete run whose RFE predictions depend on the chosen feature
count: the RFE model is the feature count itself and predicts that
constant. -/
def rfeSensitiveRun : RegressionRun where
  lmModel := Unit
  rfeModel := Nat
  lmFit := fun _ _ => ()
  lmPredict := fun _ _ => [0, 0]
  rfeFit := fun _ n _ _ => n
  rfePredict := fun n _ => [(n : ℚ), (n : ℚ)]
  xTrain := [[0], [1]]
  yTrain := [0, 1]
  xTest := [[0], [1]]
  yTest := [0, 1]

/-- C10: in the final-model cell the reported r² comes from the full
linear model's predictions, so it is the same for every value of the
chosen feature count; the earlier cells instead score the RFE model's
predictions, which can change with the feature count (witnessed by a
concrete run where they do). -/
theorem final_cell_r2_independent_of_feature_count :
    (∀ (run : RegressionRun) (n m : Nat),
      finalCellR2 run n = finalCellR2 run m)
    ∧ (∀ (run : RegressionRun) (n : Nat),
      finalCellR2 run n
        = r2Score run.yTest (run.lmPredict (run.lmFit run.xTrain run.yTrain) run.xTest))
    ∧ (∀ (run : RegressionRun) (n : Nat),
      rfeCellR2 run n
        = r2Score run.yTest (run.rfePredict
            (run.rfeFit (run.lmFit run.xTrain run.yTrain) n run.xTrain run.yTrain)
            run.xTest))
    ∧ rfeCellR2 rfeSensitiveRun 0 ≠ rfeCellR2 rfeSensitiveRun 2 := by
  refine ⟨fun run n m => rfl, fun run n => rfl, fun run n => rfl, ?_⟩
  have h0 : rfeCellR2 rfeSensitiveRun 0 = r2Score [0, 1] [0, 0] := rfl
  have h2 : rfeCellR2 rfeSensitiveRun 2 = r2Score [0, 1] [2, 2] := rfl
  rw [h0, h2]
  norm_num [r2Score, meanQ]

/-- Row count of the mushroom dataset. -/
def mushroomRowCount : Nat := 8124

/-- The rows handed to the mushroom notebook's scaler fit: the scaler
is fit on the full feature table before any split is made. -/
def mushroomScalerFitRows : List Nat := List.range mushroomRowCount

/-- The rows handed to the mushroom notebook's PCA fit: PCA is fit on
the full scaled table, again before its split. -/
def mushroomPcaFitRows : List Nat := List.range mushroomRowCount

/-- The mushroom notebook's split, performed after both preprocessor
fits: seed 42, evaluation fraction 0.2 (stratification not modelled —
it does not affect which rows reach the earlier fit calls). -/
def mushroomSplit : SplitResult := trainTestSplit 42 (1/5) mushroomRowCount

/-- The wine notebook's split: seed 0, evaluation fraction 0.2,
performed before its scaler is fit. -/
def wineSplit (n : Nat) : SplitResult := trainTestSplit 0 (1/5) n

/-- The rows handed to the wine notebook's scaler fit: only the
training subset (fit_transform on the training rows). -/
def wineScalerFitRows (n : Nat) : List Nat := (wineSplit n).train

theorem testSize_mushroom : testSize (1/5) 8124 = 1625 := by
  rw [testSize, Nat.ceil_eq_iff (by norm_num)]
  norm_num

/-- C1 counterexample: in the mushroom workflow the evaluation subset
has 1625 rows and every one of them is contained in both preprocessor
fit inputs — the scaler and PCA fits receive evaluation-subset rows. -/
theorem preprocessor_fit_leakage_counterexample :
    mushroomSplit.test.length = 1625
    ∧ ∀ r ∈ mushroomSplit.test,
        r ∈ mushroomScalerFitRows ∧ r ∈ mushroomPcaFitRows := by
  constructor
  · rw [mushroomSplit, mushroomRowCount,
      trainTestSplit_test_length 42 (1/5) 8124 (by rw [testSize_mushroom]; omega)]
    exact testSize_mushroom
  · intro r hr
    have hmem : r ∈ List.range mushroomRowCount := by
      have hcover := trainTestSplit_cover 42 (1/5) mushroomRowCount
      exact hcover.mem_iff.mp (List.mem_append_left _ hr)
    exact ⟨hmem, hmem⟩

/-- C1 amended: the wine workflow's scaler fit input contains no
evaluation rows, but the mushroom workflow fits both its scaler and its
PCA on the full dataset before splitting, so every one of its 1625
evaluation rows is contained in both fit inputs. -/
theorem preprocessor_fit_rows_amended :
    (∀ n, ∀ r ∈ wineScalerFitRows n, r ∉ (wineSplit n).test)
    ∧ mushroomSplit.test.length = 1625
    ∧ (∀ r ∈ mushroomSplit.test,
        r ∈ mushroomScalerFitRows ∧ r ∈ mushroomPcaFitRows) := by
  refine ⟨?_, ?_, ?_⟩
  · intro n r hr hrtest
    exact trainTestSplit_disjoint 0 (1/5) n r hrtest hr
  · rw [mushroomSplit, mushroomRowCount,
      trainTestSplit_test_length 42 (1/5) 8124 (by rw [testSize_mushroom]; omega)]
    exact testSize_mushroom
  · intro r hr
    have hmem : r ∈ List.range mushroomRowCount := by
      have hcover := trainTestSplit_cover 42 (1/5) mushroomRowCount
      exact hcover.mem_iff.mp (List.mem_append_left _ hr)
    exact ⟨hmem, hmem⟩

/-- The warning categories the notebooks name in their suppression
calls. -/
inductive WarningCategory where
  | userWarning
  | fitFailedWarning
  | undefinedMetricWarning
deriving DecidableEq

/-- A suppression call's scope: the named category, or none for a
blanket suppression of every category. -/
def isBlanket (c : Option WarningCategory) : Bool := c.isNone

/-- The digit notebook installs no warning suppression. -/
def digitsSuppressions : List (Option WarningCategory) := []

/-- The mushroom notebook's two suppression calls, each scoped to a
category (UserWarning, FitFailedWarning). -/
def mushroomSuppressions : List (Option WarningCategory) :=
  [some WarningCategory.userWarning, some WarningCategory.fitFailedWarning]

/-- The adult-income notebook's single suppression call, passed no
category at all. -/
def adultIncomeSuppressions : List (Option WarningCategory) := [none]

/-- The wine notebook's single suppression call, scoped to
UndefinedMetricWarning. -/
def wineSuppressions : List (Option WarningCategory) :=
  [some WarningCategory.undefinedMetricWarning]

/-- The banking notebook installs no warning suppression. -/
def bankingSuppressions : List (Option WarningCategory) := []

/-- The subscription-length notebook's single suppression call, passed
no category at all. -/
def subscriptionSuppressions : List (Option WarningCategory) := [none]

/-- Every suppression call any of the notebooks installs. -/
def allSuppressions : List (Option WarningCategory) :=
  digitsSuppressions ++ mushroomSuppressions ++ adultIncomeSuppressions
    ++ wineSuppressions ++ bankingSuppressions ++ subscriptionSuppressions

/-- C2 counterexample: the adult-income notebook's suppression call
names no category — it is a blanket suppression, so not every
suppression installed by the notebooks is category-scoped. -/
theorem blanket_suppression_counterexample :
    allSuppressions.any isBlanket = true
    ∧ none ∈ adultIncomeSuppressions
    ∧ isBlanket none = true := by
  decide

/-- C2 amended: the mushroom and wine notebooks scope each suppression
to a specific category and the digit and banking notebooks suppress
nothing, but the adult-income and subscription-length notebooks each
install a blanket suppression with no category. -/
theorem warning_suppressions_amended :
    mushroomSuppressions.all (fun c => !isBlanket c) = true
    ∧ wineSuppressions.all (fun c => !isBlanket c) = true
    ∧ digitsSuppressions = []
    ∧ bankingSuppressions = []
    ∧ adultIncomeSuppressions.any isBlanket = true
    ∧ subscriptionSuppressions.any isBlanket = true := by
  decide
